import Mathlib

/-!
A verification development for the Toprev request-handling pipeline:
per-IP fixed-window rate limiting, request/response schema validation,
provider-credential gating, PR-diff truncation, and model-output
normalization (fence stripping, JSON parsing, object-span extraction),
as implemented in `src/app/api/decant/route.ts`, `src/app/api/narrate/route.ts`
and the streaming narrate handler.
-/

namespace Toprev

/-! ## Rate limiter (`checkRateLimit` in decant/route.ts lines 43-58) -/

/-- One entry of `rateLimitMap`: `{ count: number; resetTime: number }`. -/
structure RateRecord where
  count : Nat
  resetTime : Nat
deriving DecidableEq, Repr

/-- `RATE_LIMIT.maxRequests` (decant/route.ts line 10). -/
def RATE_LIMIT_maxRequests : Nat := 10

/-- `RATE_LIMIT.windowMs = 60 * 1000` (decant/route.ts line 11). -/
def RATE_LIMIT_windowMs : Nat := 60 * 1000

/-- The `{ allowed, remaining }` value returned by `checkRateLimit`. -/
structure RLResult where
  allowed : Bool
  remaining : Nat
deriving DecidableEq, Repr

/-- `checkRateLimit` for a single client key: the argument is the current
`rateLimitMap.get(ip)` value, the result pairs the returned
`{allowed, remaining}` with the record stored back for that key.
Mirrors decant/route.ts lines 43-58: on no record or `now > record.resetTime`
reset to count 1; on `count >= maxRequests` deny (no mutation);
otherwise `record.count++`. -/
def checkRateLimit (record : Option RateRecord) (now : Nat) : RLResult × RateRecord :=
  match record with
  | none => (⟨true, RATE_LIMIT_maxRequests - 1⟩, ⟨1, now + RATE_LIMIT_windowMs⟩)
  | some r =>
    if now > r.resetTime then
      (⟨true, RATE_LIMIT_maxRequests - 1⟩, ⟨1, now + RATE_LIMIT_windowMs⟩)
    else if r.count ≥ RATE_LIMIT_maxRequests then
      (⟨false, 0⟩, r)
    else
      (⟨true, RATE_LIMIT_maxRequests - (r.count + 1)⟩, ⟨r.count + 1, r.resetTime⟩)

/-- Run a sequence of rate-limit checks for one key, at the given call times,
collecting the results and the final stored record. -/
def runRateLimit (record : Option RateRecord) : List Nat → List RLResult × RateRecord
  | [] => ([], ⟨0, 0⟩)
  | t :: ts =>
    let step := checkRateLimit record t
    match ts with
    | [] => ([step.1], step.2)
    | _ =>
      let rest := runRateLimit (some step.2) ts
      (step.1 :: rest.1, rest.2)

/-- The whole `rateLimitMap`, as a function from client key to stored record. -/
def RateMap : Type := String → Option RateRecord

/-- `checkRateLimit` acting on the shared `rateLimitMap`: the map is written
in the two allowed branches (`rateLimitMap.set` on reset, in-place
`record.count++` on increment) and left untouched on denial. -/
def checkRateLimitMap (m : RateMap) (ip : String) (now : Nat) : RLResult × RateMap :=
  let step := checkRateLimit (m ip) now
  if step.1.allowed then
    (step.1, fun k => if k = ip then some step.2 else m k)
  else
    (step.1, m)

/-- Run a sequence of `(clientKey, now)` rate-limit checks against the map. -/
def runRateLimitMap (m : RateMap) : List (String × Nat) → List RLResult × RateMap
  | [] => ([], m)
  | (ip, t) :: es =>
    let step := checkRateLimitMap m ip t
    let rest := runRateLimitMap step.2 es
    (step.1 :: rest.1, rest.2)

/-- The empty `rateLimitMap` at process start. -/
def emptyRateMap : RateMap := fun _ => none

/-- `getClientIP` (decant/route.ts lines 34-40):
`forwarded?.split(",")[0]?.trim() || realIP || "unknown"`, where the
JavaScript `||` treats the empty string as falsy. -/
def getClientIP (forwarded realIP : Option String) : String :=
  let fwd : String :=
    match forwarded with
    | some f => ((f.splitOn ",").headD "").trim
    | none => ""
  if fwd ≠ "" then fwd
  else
    match realIP with
    | some r => if r ≠ "" then r else "unknown"
    | none => "unknown"

/-! ## Provider credential gate (C3) -/

/-- Outcome of the `API_KEY` check phase of a handler: either an error
response is returned, or the handler proceeds to build the provider client
and issue the completion call with the given key. -/
inductive ApiKeyOutcome where
  | errorResponse (status : Nat) (message : String)
  | providerCall (apiKey : Option String)
deriving DecidableEq, Repr

/-- JavaScript truthiness of `process.env.API_KEY`: `undefined` and the
empty string are falsy. -/
def isFalsyEnv : Option String → Bool
  | none => true
  | some s => s.isEmpty

/-- decant/route.ts lines 139-146: `if (!apiKey) return 503 "Service
temporarily unavailable"`, else proceed to `new GoogleGenerativeAI(apiKey)`. -/
def decantKeyGate (apiKey : Option String) : ApiKeyOutcome :=
  if isFalsyEnv apiKey then ApiKeyOutcome.errorResponse 503 "Service temporarily unavailable"
  else ApiKeyOutcome.providerCall apiKey

/-- narrate/route.ts (blocking variant) lines 63-66: `if (!apiKey) return
503 "Service unavailable"`, else proceed. -/
def narrateKeyGate (apiKey : Option String) : ApiKeyOutcome :=
  if isFalsyEnv apiKey then ApiKeyOutcome.errorResponse 503 "Service unavailable"
  else ApiKeyOutcome.providerCall apiKey

/-- Streaming narrate handler (part_009 lines 84-87): `if
(!process.env.API_KEY) return 500 "Server Configuration Error"`, else
proceed. -/
def narrateStreamKeyGate (apiKey : Option String) : ApiKeyOutcome :=
  if isFalsyEnv apiKey then ApiKeyOutcome.errorResponse 500 "Server Configuration Error"
  else ApiKeyOutcome.providerCall apiKey

/-- Streaming review handler (second document of narrate/route.ts, lines
209-215): there is no credential check at all; `process.env.API_KEY` is
passed directly to `createGoogleGenerativeAI` and `streamObject` is
invoked. -/
def decantStreamKeyGate (apiKey : Option String) : ApiKeyOutcome :=
  ApiKeyOutcome.providerCall apiKey

/-! ## Request schema of the review endpoint (C4) -/

/-- The closed persona enumeration of the UI (`RoasterPersona` in
page.tsx lines 37-44). -/
def roasterPersonas : List String := ["principal", "vc", "security", "clean"]

/-- A review request body as sent by the client: the UI submits
`{ code, persona }` (page.tsx line 135). Fields are optional because the
client may omit them. -/
structure ReviewBody where
  code : Option String
  persona : Option String

/-- `requestSchema.safeParse` of decant/route.ts lines 17-22: a zod object
with a single `code` field bounded to length 10..50000. Unknown keys such
as `persona` are stripped by zod, not rejected; the parsed data is just
the code string. -/
def requestSchemaParse (b : ReviewBody) : Option String :=
  match b.code with
  | some c => if 10 ≤ c.length ∧ c.length ≤ 50000 then some c else none
  | none => none

/-! ## Response schema of the review endpoint (C2) -/

/-- A parsed (pre-validation) tasting note: the five fields the model is
asked for, with `score` still an arbitrary number. -/
structure RawTastingNote where
  title : List Char
  diagnosis : List Char
  fix : List Char
  level : List Char
  score : ℚ
deriving DecidableEq, Repr

/-- A validated tasting note: after `responseSchema` validation the score
is an integer. -/
structure TastingNote where
  title : List Char
  diagnosis : List Char
  fix : List Char
  level : List Char
  score : ℤ
deriving DecidableEq, Repr

/-- `responseSchema` of decant/route.ts lines 25-31: string fields with
length bounds, `score: z.number().min(0).max(100).transform(Math.round)`.
`Math.round` is round-half-up, which is Mathlib `round`. -/
def validateTastingNote (r : RawTastingNote) : Option TastingNote :=
  if 1 ≤ r.title.length ∧ r.title.length ≤ 300
      ∧ 1 ≤ r.diagnosis.length ∧ r.diagnosis.length ≤ 3000
      ∧ 1 ≤ r.fix.length ∧ r.fix.length ≤ 2000
      ∧ 1 ≤ r.level.length ∧ r.level.length ≤ 150
      ∧ 0 ≤ r.score ∧ r.score ≤ 100 then
    some ⟨r.title, r.diagnosis, r.fix, r.level, round r.score⟩
  else none

/-- `tastingNoteSchema` of the streaming review handler (narrate/route.ts
second document, lines 138-144): every field is an unbounded
`z.string()`/`z.number()` with only `.describe(...)` annotations, so
validation accepts any raw note unchanged. -/
def validateStreamTastingNote (r : RawTastingNote) : Option RawTastingNote :=
  some r

/-! ## PR diff truncation in the streaming narrate handler (C8) -/

/-- The 48,000-character cap on fetched PR content (part_009 line 74). -/
def PR_CONTENT_LIMIT : Nat := 48000

/-- The marker appended when the fetched content is truncated
(part_009 line 75). -/
def truncationMarker : List Char := '\n' :: ("... (truncated)".toList)

/-- part_009 lines 74-75: `code = prContent.slice(0, 48000); if
(prContent.length > 48000) code += "\n... (truncated)"`. -/
def truncatePRContent (prContent : List Char) : List Char :=
  let code := prContent.take PR_CONTENT_LIMIT
  if prContent.length > PR_CONTENT_LIMIT then code ++ truncationMarker else code

/-! ## Output normalization (C6, C7)

The decant handler normalizes raw model text (decant/route.ts lines
264-365): trim, strip a leading/trailing markdown fence, `JSON.parse`; on
parse failure, re-strip and extract a candidate object span with the
regex `/\x7b[\s\S]*\x7d/` (greedy: first opening brace to last closing
brace) and parse that. Text is modelled as `List Char`. -/

/-- Whitespace as used by trimming and fence stripping (the common ASCII
subset of JavaScript `\s` and `String.prototype.trim`). -/
def isJsonWs (c : Char) : Bool := c = ' ' || c = '\t' || c = '\n' || c = '\r'

/-- `text.trim()`. -/
def trimChars (l : List Char) : List Char :=
  ((l.dropWhile isJsonWs).reverse.dropWhile isJsonWs).reverse

/-- Boolean prefix test (`String.prototype.startsWith`). -/
def startsWithChars : List Char → List Char → Bool
  | [], _ => true
  | _ :: _, [] => false
  | p :: ps, c :: cs => p = c && startsWithChars ps cs

/-- The backtick character. -/
def backtick : Char := Char.ofNat 96

/-- A three-backtick markdown fence delimiter. -/
def fenceChars : List Char := [backtick, backtick, backtick]

/-- A fence delimiter carrying the `json` format tag. -/
def fenceJsonChars : List Char := fenceChars ++ ['j', 's', 'o', 'n']

/-- `replace(/\s*` + three backticks + `$/, "")`: remove a trailing fence
delimiter and the whitespace run before it (the input is already trimmed,
so end-of-string anchoring is exact). -/
def dropTrailingFence (l : List Char) : List Char :=
  let r := l.reverse
  if startsWithChars fenceChars r then ((r.drop 3).dropWhile isJsonWs).reverse else l

/-- decant/route.ts lines 267-273 and 326-333: if the trimmed text starts
with a `json`-tagged fence, strip that delimiter plus following
whitespace and the trailing delimiter; else if it starts with a bare
fence, strip likewise; otherwise leave the text alone. -/
def stripFences (l : List Char) : List Char :=
  if startsWithChars fenceJsonChars l then dropTrailingFence ((l.drop 7).dropWhile isJsonWs)
  else if startsWithChars fenceChars l then dropTrailingFence ((l.drop 3).dropWhile isJsonWs)
  else l

/-- Index of the first occurrence of a character. -/
def firstIdxOf (c : Char) : List Char → Option Nat
  | [] => none
  | x :: xs => if x = c then some 0 else (firstIdxOf c xs).map (· + 1)

/-- Index of the last occurrence of a character. -/
def lastIdxOf (c : Char) : List Char → Option Nat
  | [] => none
  | x :: xs =>
    match lastIdxOf c xs with
    | some k => some (k + 1)
    | none => if x = c then some 0 else none

/-- The candidate span matched by `cleanedText.match(/\x7b[\s\S]*\x7d/)`
(decant/route.ts line 336): leftmost-greedy, i.e. from the first opening
brace to the last closing brace, provided the latter lies after the
former. -/
def extractCandidate (l : List Char) : Option (List Char) :=
  match firstIdxOf '{' l, lastIdxOf '}' l with
  | some i, some j => if i < j then some ((l.drop i).take (j + 1 - i)) else none
  | _, _ => none

/-- Parsed JSON values. -/
inductive Json where
  | null
  | bool (b : Bool)
  | num (q : ℚ)
  | str (s : List Char)
  | arr (elems : List Json)
  | obj (members : List (List Char × Json))
deriving Repr

/-- Single-character string escapes of JSON. -/
def escMap (c : Char) : Option Char :=
  if c = '\"' then some '\"'
  else if c = '\\' then some '\\'
  else if c = '/' then some '/'
  else if c = 'b' then some (Char.ofNat 8)
  else if c = 'f' then some (Char.ofNat 12)
  else if c = 'n' then some '\n'
  else if c = 'r' then some '\r'
  else if c = 't' then some '\t'
  else none

/-- Hexadecimal digit value. -/
def hexVal (c : Char) : Option Nat :=
  if '0' ≤ c ∧ c ≤ '9' then some (c.toNat - 48)
  else if 'a' ≤ c ∧ c ≤ 'f' then some (c.toNat - 87)
  else if 'A' ≤ c ∧ c ≤ 'F' then some (c.toNat - 55)
  else none

/-- JSON string body parser; the input starts after the opening quote,
the result pairs the decoded content with the rest after the closing
quote. -/
def parseStr : List Char → Option (List Char × List Char)
  | [] => none
  | '\"' :: rest => some ([], rest)
  | '\\' :: 'u' :: h1 :: h2 :: h3 :: h4 :: rest =>
    match hexVal h1, hexVal h2, hexVal h3, hexVal h4 with
    | some a, some b, some c, some d =>
      (parseStr rest).map (fun p => (Char.ofNat (((a * 16 + b) * 16 + c) * 16 + d) :: p.1, p.2))
    | _, _, _, _ => none
  | '\\' :: e :: rest =>
    match escMap e with
    | some ec => (parseStr rest).map (fun p => (ec :: p.1, p.2))
    | none => none
  | c :: rest => (parseStr rest).map (fun p => (c :: p.1, p.2))

/-- Decimal digit value. -/
def digVal (c : Char) : Option Nat := if c.isDigit then some (c.toNat - 48) else none

/-- Split a leading run of decimal digits off a character list. -/
def takeDigits : List Char → List Nat × List Char
  | [] => ([], [])
  | c :: rest =>
    match digVal c with
    | some d =>
      let p := takeDigits rest
      (d :: p.1, p.2)
    | none => ([], c :: rest)

/-- Value of a digit run. -/
def digitsToNat (ds : List Nat) : Nat := ds.foldl (fun a d => a * 10 + d) 0

/-- JSON number parser: optional minus, integer part without leading
zeros, optional fraction, optional exponent. -/
def parseNum (l : List Char) : Option (ℚ × List Char) :=
  let sgn : Bool × List Char :=
    match l with
    | c :: r => if c = '-' then (true, r) else (false, c :: r)
    | [] => (false, [])
  let ip := takeDigits sgn.2
  if ip.1 = [] then none
  else if ip.1.head? = some 0 ∧ 1 < ip.1.length then none
  else
    let intVal : ℚ := (digitsToNat ip.1 : ℚ)
    let fr : Option (ℚ × List Char) :=
      match ip.2 with
      | '.' :: r2 =>
        let fp := takeDigits r2
        if fp.1 = [] then none
        else some (intVal + (digitsToNat fp.1 : ℚ) / (10 : ℚ) ^ fp.1.length, fp.2)
      | _ => some (intVal, ip.2)
    match fr with
    | none => none
    | some (mant, r3) =>
      let ex : Option (ℚ × List Char) :=
        match r3 with
        | e :: r4 =>
          if e = 'e' ∨ e = 'E' then
            let es : Bool × List Char :=
              match r4 with
              | '+' :: r5 => (false, r5)
              | '-' :: r5 => (true, r5)
              | _ => (false, r4)
            let ep := takeDigits es.2
            if ep.1 = [] then none
            else
              let factor : ℚ := (10 : ℚ) ^ digitsToNat ep.1
              some (if es.1 then mant / factor else mant * factor, ep.2)
          else some (mant, r3)
        | [] => some (mant, r3)
      match ex with
      | none => none
      | some (v, r6) => some (if sgn.1 then -v else v, r6)

mutual

/-- Fueled JSON value parser: skip whitespace, then dispatch on the head
character (string, object, array, keyword, number). -/
def parseVal : Nat → List Char → Option (Json × List Char)
  | 0, _ => none
  | fuel + 1, l =>
    let l₁ := l.dropWhile isJsonWs
    match l₁ with
    | [] => none
    | c :: rest =>
      if c = '\"' then (parseStr rest).map (fun p => (Json.str p.1, p.2))
      else if c = '{' then parseObjBody fuel rest
      else if c = '[' then parseArrBody fuel rest
      else if startsWithChars ['t', 'r', 'u', 'e'] l₁ then some (Json.bool true, l₁.drop 4)
      else if startsWithChars ['f', 'a', 'l', 's', 'e'] l₁ then some (Json.bool false, l₁.drop 5)
      else if startsWithChars ['n', 'u', 'l', 'l'] l₁ then some (Json.null, l₁.drop 4)
      else (parseNum l₁).map (fun p => (Json.num p.1, p.2))

/-- Object body parser, after the opening brace. -/
def parseObjBody : Nat → List Char → Option (Json × List Char)
  | 0, _ => none
  | fuel + 1, l =>
    let l₁ := l.dropWhile isJsonWs
    match l₁ with
    | '}' :: rest => some (Json.obj [], rest)
    | _ => parseMembers fuel l₁

/-- One or more `"key": value` members, ending at the closing brace. -/
def parseMembers : Nat → List Char → Option (Json × List Char)
  | 0, _ => none
  | fuel + 1, l =>
    match l.dropWhile isJsonWs with
    | '\"' :: rest =>
      match parseStr rest with
      | none => none
      | some (key, r1) =>
        match r1.dropWhile isJsonWs with
        | ':' :: r3 =>
          match parseVal fuel r3 with
          | none => none
          | some (v, r4) =>
            match r4.dropWhile isJsonWs with
            | ',' :: r6 =>
              match parseMembers fuel r6 with
              | some (Json.obj members, r7) => some (Json.obj ((key, v) :: members), r7)
              | _ => none
            | '}' :: r6 => some (Json.obj [(key, v)], r6)
            | _ => none
        | _ => none
    | _ => none

/-- Array body parser, after the opening bracket. -/
def parseArrBody : Nat → List Char → Option (Json × List Char)
  | 0, _ => none
  | fuel + 1, l =>
    let l₁ := l.dropWhile isJsonWs
    match l₁ with
    | ']' :: rest => some (Json.arr [], rest)
    | _ => parseElems fuel l₁

/-- One or more array elements, ending at the closing bracket. -/
def parseElems : Nat → List Char → Option (Json × List Char)
  | 0, _ => none
  | fuel + 1, l =>
    match parseVal fuel l with
    | none => none
    | some (v, r) =>
      match r.dropWhile isJsonWs with
      | ',' :: r2 =>
        match parseElems fuel r2 with
        | some (Json.arr elems, r3) => some (Json.arr (v :: elems), r3)
        | _ => none
      | ']' :: r2 => some (Json.arr [v], r2)
      | _ => none

end

/-- `JSON.parse`: a whole-input parse, succeeding only when nothing but
whitespace remains after the value. -/
def jsonParse (l : List Char) : Option Json :=
  match parseVal (l.length + 1) l with
  | some (v, rest) => if (rest.dropWhile isJsonWs).isEmpty then some v else none
  | none => none

/-- The normalization pipeline of the decant handler: trim and strip
fences, try a direct parse; on failure extract the regex candidate span
and parse that; the error payloads are the messages thrown at
decant/route.ts lines 359 and 363 (both are mapped to a generic 500
response by the outer catch). -/
def decantNormalize (text : List Char) : Except String Json :=
  let cleaned := stripFences (trimChars text)
  match jsonParse cleaned with
  | some v => Except.ok v
  | none =>
    match extractCandidate cleaned with
    | some cand =>
      match jsonParse cand with
      | some v => Except.ok v
      | none => Except.error "Failed to parse response"
    | none => Except.error "No valid JSON found in response"

/-- Scan for the closing brace matching an already-open brace at the given
depth, returning the number of characters consumed through that brace. -/
def scanBalanced : Nat → List Char → Option Nat
  | _, [] => none
  | d, c :: cs =>
    if c = '{' then (scanBalanced (d + 1) cs).map (· + 1)
    else if c = '}' then
      if d = 1 then some 1 else (scanBalanced (d - 1) cs).map (· + 1)
    else (scanBalanced d cs).map (· + 1)

/-- Modelled from the spec: "locate the first balanced object-like span
within the text (bracket-matching)". This is the comparison definition for
the refinement claim C6; the code itself has no bracket-matching scan,
only the greedy regex modelled by `extractCandidate`. -/
def firstBalancedObjectSpan : List Char → Option (List Char)
  | [] => none
  | c :: cs =>
    if c = '{' then
      match scanBalanced 1 cs with
      | some n => some ('{' :: cs.take n)
      | none => firstBalancedObjectSpan cs
    else firstBalancedObjectSpan cs

/-- A markdown-fenced block: a fence delimiter with a format tag, a line
of content, and a closing delimiter. -/
def fencedBlock (tag inner : List Char) : List Char :=
  fenceChars ++ tag ++ '\n' :: (inner ++ '\n' :: fenceChars)

/-- Characters that may appear in a fence format tag (such as `json`,
`ts`, `javascript`): anything except whitespace and the characters that
could start or end a JSON value of interest. -/
def isTagChar (c : Char) : Bool :=
  !isJsonWs c && c != '\"' && c != '{' && c != '}' && c != '[' && c != '-' && !c.isDigit

/-! ### Rate limiter lemmas -/

theorem checkRateLimit_none (now : Nat) :
    checkRateLimit none now =
      (⟨true, RATE_LIMIT_maxRequests - 1⟩, ⟨1, now + RATE_LIMIT_windowMs⟩) := rfl

theorem checkRateLimit_in_window (r : RateRecord) (now : Nat)
    (hw : now ≤ r.resetTime) (hc : r.count < RATE_LIMIT_maxRequests) :
    checkRateLimit (some r) now =
      (⟨true, RATE_LIMIT_maxRequests - (r.count + 1)⟩, ⟨r.count + 1, r.resetTime⟩) := by
  simp only [checkRateLimit]
  rw [if_neg (by omega), if_neg (by omega)]

theorem checkRateLimit_deny (r : RateRecord) (now : Nat)
    (hw : now ≤ r.resetTime) (hc : RATE_LIMIT_maxRequests ≤ r.count) :
    checkRateLimit (some r) now = (⟨false, 0⟩, r) := by
  simp only [checkRateLimit]
  rw [if_neg (by omega), if_pos (by omega)]

/-- Within a window, starting from a stored record with count `c`, a run of
`k` further in-window requests with `c + k ≤ 10` is allowed throughout and
ends with count `c + k` (the reset time never changes). -/
theorem runRateLimit_in_window (reset : Nat) :
    ∀ (ts : List Nat) (c : Nat), ts ≠ [] → 1 ≤ c →
    c + ts.length ≤ RATE_LIMIT_maxRequests →
    (∀ t ∈ ts, t ≤ reset) →
    (∀ res ∈ (runRateLimit (some ⟨c, reset⟩) ts).1, res.allowed = true) ∧
    (runRateLimit (some ⟨c, reset⟩) ts).2 = ⟨c + ts.length, reset⟩ := by
  intro ts
  induction ts with
  | nil => intro c h; exact absurd rfl h
  | cons t ts ih =>
    intro c _ hc hlen hwin
    have hstep : checkRateLimit (some ⟨c, reset⟩) t =
        (⟨true, RATE_LIMIT_maxRequests - (c + 1)⟩, ⟨c + 1, reset⟩) := by
      apply checkRateLimit_in_window
      · exact hwin t (List.mem_cons_self t ts)
      · show c < RATE_LIMIT_maxRequests
        simp only [List.length_cons] at hlen; omega
    cases ts with
    | nil =>
      simp only [runRateLimit, hstep]
      constructor
      · intro res hres
        simp only [List.mem_singleton] at hres
        subst hres; rfl
      · simp only [List.length_cons, List.length_nil]
    | cons t' ts' =>
      have hrest := ih (c + 1) (by simp) (by omega)
        (by simp only [List.length_cons] at hlen ⊢; omega)
        (fun x hx => hwin x (List.mem_cons_of_mem t hx))
      simp only [runRateLimit, hstep] at hrest ⊢
      refine ⟨?_, ?_⟩
      · intro res hres
        rcases List.mem_cons.mp hres with h | h
        · subst h; rfl
        · exact hrest.1 res h
      · rw [hrest.2]
        simp only [List.length_cons]
        congr 1
        omega

/-- The record produced by a single check is bounded: count at least 1, and
never incremented past the capacity. -/
theorem checkRateLimit_record_bounds (record : Option RateRecord) (now : Nat)
    (h : ∀ r, record = some r → 1 ≤ r.count ∧ r.count ≤ RATE_LIMIT_maxRequests) :
    1 ≤ (checkRateLimit record now).2.count
    ∧ (checkRateLimit record now).2.count ≤ RATE_LIMIT_maxRequests := by
  match record with
  | none => exact ⟨le_refl 1, by show (1 : Nat) ≤ 10; omega⟩
  | some r =>
    have hr := h r rfl
    simp only [checkRateLimit]
    by_cases h1 : now > r.resetTime
    · rw [if_pos h1]; exact ⟨le_refl 1, by show (1 : Nat) ≤ 10; omega⟩
    · rw [if_neg h1]
      by_cases h2 : r.count ≥ RATE_LIMIT_maxRequests
      · rw [if_pos h2]; exact hr
      · rw [if_neg h2]
        refine ⟨?_, ?_⟩
        · show 1 ≤ r.count + 1; omega
        · show r.count + 1 ≤ RATE_LIMIT_maxRequests; omega

/-- The per-key count invariant on the whole `rateLimitMap`. -/
def RateMapInv (m : RateMap) : Prop :=
  ∀ k r, m k = some r → 1 ≤ r.count ∧ r.count ≤ RATE_LIMIT_maxRequests

theorem checkRateLimitMap_inv (m : RateMap) (ip : String) (now : Nat)
    (h : RateMapInv m) : RateMapInv (checkRateLimitMap m ip now).2 := by
  simp only [checkRateLimitMap]
  by_cases ha : (checkRateLimit (m ip) now).1.allowed
  · rw [if_pos ha]
    intro k r hk
    have hk' : (if k = ip then some (checkRateLimit (m ip) now).2 else m k) = some r := hk
    by_cases hki : k = ip
    · rw [if_pos hki] at hk'
      have hb := checkRateLimit_record_bounds (m ip) now (fun r' hr' => h ip r' hr')
      cases hk'; exact hb
    · rw [if_neg hki] at hk'
      exact h k r hk'
  · rw [if_neg ha]
    exact h

theorem runRateLimitMap_inv (events : List (String × Nat)) :
    ∀ (m : RateMap), RateMapInv m → RateMapInv (runRateLimitMap m events).2 := by
  induction events with
  | nil => intro m h; exact h
  | cons e es ih =>
    intro m h
    exact ih _ (checkRateLimitMap_inv m e.1 e.2 h)

/-! ### Normalization lemmas -/

theorem startsWithChars_append (x y z : List Char) :
    startsWithChars (x ++ y) (x ++ z) = startsWithChars y z := by
  induction x with
  | nil => rfl
  | cons a as ih => simp [List.cons_append, startsWithChars, ih]

theorem startsWithChars_newline (kw : List Char) (hkw : ∀ c ∈ kw, c ≠ '\n') :
    ∀ (x z : List Char), startsWithChars kw (x ++ '\n' :: z) = startsWithChars kw x := by
  induction kw with
  | nil => intro x z; rfl
  | cons k ks ih =>
    intro x z
    cases x with
    | nil =>
      have hk : k ≠ '\n' := hkw k (List.mem_cons_self k ks)
      simp [startsWithChars, hk]
    | cons a as =>
      simp only [List.cons_append, List.append_eq, startsWithChars]
      rw [ih (fun c hc => hkw c (List.mem_cons_of_mem k hc)) as z]

theorem startsWithChars_eq_append (p : List Char) :
    ∀ (l : List Char), startsWithChars p l = true → l = p ++ l.drop p.length := by
  induction p with
  | nil => intro l _; simp
  | cons a as ih =>
    intro l h
    cases l with
    | nil => simp [startsWithChars] at h
    | cons b bs =>
      simp only [startsWithChars, Bool.and_eq_true, decide_eq_true_eq] at h
      obtain ⟨hab, h2⟩ := h
      subst hab
      simp only [List.cons_append, List.length_cons, List.drop_succ_cons]
      rw [← ih bs h2]

theorem dropWhile_eq_self_of_head (p : Char → Bool) (l : List Char) (c : Char)
    (hc : l.head? = some c) (hp : p c = false) : l.dropWhile p = l := by
  cases l with
  | nil => rfl
  | cons x xs =>
    cases hc
    rw [List.dropWhile_cons, hp]
    simp

theorem dropWhile_ne_nil_of_mem (p : Char → Bool) (c : Char) :
    ∀ (l : List Char), c ∈ l → p c = false → l.dropWhile p ≠ [] := by
  intro l
  induction l with
  | nil => intro hc; cases hc
  | cons x xs ih =>
    intro hc hp
    rw [List.dropWhile_cons]
    by_cases hx : p x = true
    · rw [if_pos hx]
      apply ih ?_ hp
      rcases List.mem_cons.mp hc with h | h
      · subst h; rw [hx] at hp; cases hp
      · exact h
    · rw [if_neg hx]; simp

theorem mem_of_head?_eq (l : List Char) (c : Char) (hc : l.head? = some c) : c ∈ l := by
  cases l with
  | nil => cases hc
  | cons x xs => cases hc; exact List.mem_cons_self _ _

theorem trimChars_eq_self (l : List Char) (c d : Char)
    (hc : l.head? = some c) (hcw : isJsonWs c = false)
    (hd : l.getLast? = some d) (hdw : isJsonWs d = false) : trimChars l = l := by
  unfold trimChars
  rw [dropWhile_eq_self_of_head isJsonWs l c hc hcw]
  rw [dropWhile_eq_self_of_head isJsonWs l.reverse d (by rw [List.head?_reverse]; exact hd) hdw]
  exact List.reverse_reverse l

theorem isTagChar_spec (c : Char) (h : isTagChar c = true) :
    isJsonWs c = false ∧ c ≠ '\"' ∧ c ≠ '{' ∧ c ≠ '}' ∧ c ≠ '[' ∧ c ≠ '-'
    ∧ c.isDigit = false := by
  simp only [isTagChar, Bool.and_eq_true, Bool.not_eq_true', bne_iff_ne, ne_eq] at h
  tauto

theorem firstIdxOf_head (l : List Char) (c : Char) (hc : l.head? = some c) :
    firstIdxOf c l = some 0 := by
  cases l with
  | nil => cases hc
  | cons x xs => cases hc; simp [firstIdxOf]

theorem firstIdxOf_append (c : Char) (p b : List Char) (i : Nat)
    (hp : c ∉ p) (hb : firstIdxOf c b = some i) :
    firstIdxOf c (p ++ b) = some (p.length + i) := by
  induction p with
  | nil => simpa using hb
  | cons x xs ih =>
    have hx : ¬(x = c) := fun h => hp (h ▸ List.mem_cons_self x xs)
    simp only [List.cons_append, List.append_eq, firstIdxOf]
    rw [if_neg hx, ih (fun h => hp (List.mem_cons_of_mem x h))]
    simp only [Option.map_some', List.length_cons]
    congr 1
    omega

theorem lastIdxOf_cons_some (c x : Char) (xs : List Char) (k : Nat)
    (h : lastIdxOf c xs = some k) : lastIdxOf c (x :: xs) = some (k + 1) := by
  simp only [lastIdxOf, h]

theorem lastIdxOf_getLast (c : Char) :
    ∀ (l : List Char), l.getLast? = some c → lastIdxOf c l = some (l.length - 1) := by
  intro l
  induction l with
  | nil => intro hc; cases hc
  | cons x xs ih =>
    intro hc
    cases xs with
    | nil =>
      have hc' : some x = some c := hc
      cases hc'
      simp [lastIdxOf]
    | cons y ys =>
      rw [List.getLast?_cons_cons] at hc
      rw [lastIdxOf_cons_some c x (y :: ys) _ (ih hc)]
      simp only [List.length_cons]
      congr 1

theorem lastIdxOf_append (c : Char) (p b : List Char) (j : Nat)
    (hb : lastIdxOf c b = some j) :
    lastIdxOf c (p ++ b) = some (p.length + j) := by
  induction p with
  | nil => simp [hb]
  | cons x xs ih =>
    simp only [List.cons_append]
    rw [lastIdxOf_cons_some c x (xs ++ b) _ ih]
    simp only [List.length_cons]
    congr 1
    omega

theorem extractCandidate_trailing_span (p b : List Char)
    (hp : '{' ∉ p) (hb1 : b.head? = some '{') (hb2 : b.getLast? = some '}') :
    extractCandidate (p ++ b) = some b := by
  have hlen2 : 2 ≤ b.length := by
    cases b with
    | nil => cases hb1
    | cons x xs =>
      cases hb1
      cases xs with
      | nil => exact absurd hb2 (by decide)
      | cons y ys => simp [List.length_cons]
  have hfirst : firstIdxOf '{' (p ++ b) = some (p.length + 0) :=
    firstIdxOf_append '{' p b 0 hp (firstIdxOf_head b '{' hb1)
  have hlast : lastIdxOf '}' (p ++ b) = some (p.length + (b.length - 1)) :=
    lastIdxOf_append '}' p b (b.length - 1) (lastIdxOf_getLast '}' b hb2)
  simp only [extractCandidate, hfirst, hlast]
  rw [if_pos (by omega)]
  have hdrop : (p ++ b).drop (p.length + 0) = b := by
    simp only [Nat.add_zero]
    exact List.drop_left p b
  rw [hdrop]
  have htake : p.length + (b.length - 1) + 1 - (p.length + 0) = b.length := by omega
  rw [htake, List.take_length]

theorem dropTrailingFence_strip (X : List Char) (hX : X.getLast? = some '}') :
    dropTrailingFence (X ++ '\n' :: fenceChars) = X := by
  simp only [dropTrailingFence]
  have hrev : (X ++ '\n' :: fenceChars).reverse
      = backtick :: backtick :: backtick :: '\n' :: X.reverse := by
    rw [List.reverse_append]
    rfl
  rw [hrev]
  rw [if_pos (by simp [startsWithChars, fenceChars])]
  simp only [List.drop_succ_cons, List.drop_zero]
  rw [List.dropWhile_cons, if_pos (by decide)]
  rw [dropWhile_eq_self_of_head isJsonWs X.reverse '}'
    (by rw [List.head?_reverse]; exact hX) (by decide)]
  exact List.reverse_reverse X

theorem stripTail_compute (a₂ inner : List Char)
    (htc : ∀ c ∈ a₂, isTagChar c = true)
    (h1 : inner.head? = some '{') (h2 : inner.getLast? = some '}') :
    dropTrailingFence ((a₂ ++ '\n' :: (inner ++ '\n' :: fenceChars)).dropWhile isJsonWs)
      = if a₂ = [] then inner else a₂ ++ '\n' :: inner := by
  by_cases ha : a₂ = []
  · subst ha
    rw [if_pos rfl]
    simp only [List.nil_append]
    rw [List.dropWhile_cons, if_pos (by decide)]
    have hh : (inner ++ '\n' :: fenceChars).head? = some '{' := by
      cases inner with
      | nil => cases h1
      | cons x xs => cases h1; rfl
    rw [dropWhile_eq_self_of_head isJsonWs (inner ++ '\n' :: fenceChars) '{' hh (by decide)]
    exact dropTrailingFence_strip inner h2
  · rw [if_neg ha]
    obtain ⟨c, a', rfl⟩ : ∃ c a', a₂ = c :: a' := by
      cases a₂ with
      | nil => exact absurd rfl ha
      | cons c a' => exact ⟨c, a', rfl⟩
    have hcw : isJsonWs c = false :=
      (isTagChar_spec c (htc c (List.mem_cons_self c a'))).1
    simp only [List.cons_append]
    rw [dropWhile_eq_self_of_head isJsonWs
      (c :: (a' ++ '\n' :: (inner ++ '\n' :: fenceChars))) c rfl hcw]
    have hassoc : c :: (a' ++ '\n' :: (inner ++ '\n' :: fenceChars))
        = (c :: (a' ++ '\n' :: inner)) ++ '\n' :: fenceChars := by
      simp [List.append_assoc]
    rw [hassoc]
    rw [dropTrailingFence_strip _ ?hlast]
    case hlast =>
      show (c :: (a' ++ '\n' :: inner)).getLast? = some '}'
      have : c :: (a' ++ '\n' :: inner) = (c :: a') ++ '\n' :: inner := by simp
      rw [this, List.getLast?_append_cons]
      cases inner with
      | nil => cases h1
      | cons x xs =>
        cases h1
        rw [List.getLast?_cons_cons]
        exact h2

theorem stripFences_fencedBlock (tag inner : List Char)
    (htag : ∀ c ∈ tag, isTagChar c = true)
    (h1 : inner.head? = some '{') (h2 : inner.getLast? = some '}') :
    stripFences (trimChars (fencedBlock tag inner)) = inner
    ∨ ∃ a₂, a₂ ≠ [] ∧ (∀ c ∈ a₂, isTagChar c = true) ∧
        stripFences (trimChars (fencedBlock tag inner)) = a₂ ++ '\n' :: inner := by
  have htagnl : ∀ c ∈ tag, c ≠ '\n' := by
    intro c hc he
    have := (isTagChar_spec c (htag c hc)).1
    subst he
    simp [isJsonWs] at this
  have htrim : trimChars (fencedBlock tag inner) = fencedBlock tag inner := by
    apply trimChars_eq_self _ backtick backtick
    · rfl
    · decide
    · have hshape : fencedBlock tag inner
          = (fenceChars ++ tag ++ '\n' :: inner) ++ '\n' :: fenceChars := by
        simp [fencedBlock, List.append_assoc]
      rw [hshape, List.getLast?_append_cons]
      rfl
    · decide
  have hW : fencedBlock tag inner
      = fenceChars ++ (tag ++ '\n' :: (inner ++ '\n' :: fenceChars)) := by
    simp [fencedBlock, List.append_assoc]
  have hcond1 : startsWithChars fenceJsonChars (fencedBlock tag inner)
      = startsWithChars ['j', 's', 'o', 'n'] tag := by
    rw [hW]
    have : fenceJsonChars = fenceChars ++ ['j', 's', 'o', 'n'] := rfl
    rw [this, startsWithChars_append]
    exact startsWithChars_newline ['j', 's', 'o', 'n'] (by decide) tag _
  rw [htrim]
  by_cases hjson : startsWithChars ['j', 's', 'o', 'n'] tag = true
  · have hdecomp : tag = ['j', 's', 'o', 'n'] ++ tag.drop 4 := by
      have := startsWithChars_eq_append ['j', 's', 'o', 'n'] tag hjson
      simpa using this
    have hfb : fencedBlock tag inner
        = fenceJsonChars ++ (tag.drop 4 ++ '\n' :: (inner ++ '\n' :: fenceChars)) := by
      rw [hW]
      conv_lhs => rw [hdecomp]
      simp [fenceJsonChars, List.append_assoc]
    have hdrop7 : (fencedBlock tag inner).drop 7
        = tag.drop 4 ++ '\n' :: (inner ++ '\n' :: fenceChars) := by
      rw [hfb]
      exact List.drop_left' rfl
    simp only [stripFences]
    rw [if_pos (by rw [hcond1]; exact hjson)]
    rw [hdrop7]
    have hres := stripTail_compute (tag.drop 4) inner
      (fun c hc => htag c (List.mem_of_mem_drop hc)) h1 h2
    by_cases hd4 : tag.drop 4 = []
    · left
      rw [hres, if_pos hd4]
    · right
      exact ⟨tag.drop 4, hd4, fun c hc => htag c (List.mem_of_mem_drop hc),
        by rw [hres, if_neg hd4]⟩
  · have hcond2 : startsWithChars fenceChars (fencedBlock tag inner) = true := by
      rw [hW]
      have h0 : startsWithChars (fenceChars ++ []) (fenceChars
          ++ (tag ++ '\n' :: (inner ++ '\n' :: fenceChars))) = true := by
        rw [startsWithChars_append]
        rfl
      simpa using h0
    have hdrop3 : (fencedBlock tag inner).drop 3
        = tag ++ '\n' :: (inner ++ '\n' :: fenceChars) := by
      rw [hW]
      exact List.drop_left' rfl
    simp only [stripFences]
    rw [if_neg (by rw [hcond1]; exact hjson), if_pos hcond2]
    rw [hdrop3]
    have hres := stripTail_compute tag inner htag h1 h2
    by_cases htn : tag = []
    · left
      rw [hres, if_pos htn]
    · right
      exact ⟨tag, htn, htag, by rw [hres, if_neg htn]⟩

theorem jsonParse_eq_none_of_leftover (l : List Char) (v : Json) (rest : List Char)
    (h : parseVal (l.length + 1) l = some (v, rest))
    (hne : rest.dropWhile isJsonWs ≠ []) : jsonParse l = none := by
  simp only [jsonParse, h]
  rw [if_neg (fun hh => hne (List.isEmpty_iff.mp hh))]

theorem jsonParse_eq_none_of_parseVal_none (l : List Char)
    (h : parseVal (l.length + 1) l = none) : jsonParse l = none := by
  simp only [jsonParse, h]

/-- Text made of a nonempty run of tag characters, a newline, and a
remainder containing an opening brace is not valid JSON: whatever keyword
the tag may start with, a non-whitespace leftover remains. -/
theorem jsonParse_tag_leading (a w : List Char) (ha : a ≠ [])
    (htag : ∀ c ∈ a, isTagChar c = true) (hw : '{' ∈ w) :
    jsonParse (a ++ '\n' :: w) = none := by
  obtain ⟨c, a', rfl⟩ : ∃ c a', a = c :: a' := by
    cases a with
    | nil => exact absurd rfl ha
    | cons c a' => exact ⟨c, a', rfl⟩
  obtain ⟨hws, hq, hob, hcb, hsb, hmn, hdg⟩ :=
    isTagChar_spec c (htag c (List.mem_cons_self c a'))
  simp only [List.cons_append]
  have hdw : (c :: (a' ++ '\n' :: w)).dropWhile isJsonWs = c :: (a' ++ '\n' :: w) :=
    dropWhile_eq_self_of_head isJsonWs _ c rfl hws
  have hkwd : ∀ (kw : List Char), (∀ x ∈ kw, x ≠ '\n') →
      startsWithChars kw (c :: (a' ++ '\n' :: w)) = true →
      ((c :: (a' ++ '\n' :: w)).drop kw.length).dropWhile isJsonWs ≠ [] := by
    intro kw hkwnl hsw
    rw [← List.cons_append] at hsw
    rw [startsWithChars_newline kw hkwnl (c :: a') w] at hsw
    have hlen : kw.length ≤ (c :: a').length := by
      have hdec := startsWithChars_eq_append kw (c :: a') hsw
      have hlen2 := congrArg List.length hdec
      simp only [List.length_append] at hlen2
      omega
    rw [← List.cons_append, List.drop_append_of_le_length hlen]
    apply dropWhile_ne_nil_of_mem isJsonWs '{'
    · exact List.mem_append_right _ (List.mem_cons_of_mem _ hw)
    · decide
  by_cases ht : startsWithChars ['t', 'r', 'u', 'e'] (c :: (a' ++ '\n' :: w)) = true
  · apply jsonParse_eq_none_of_leftover _ (Json.bool true) ((c :: (a' ++ '\n' :: w)).drop 4)
    · simp only [parseVal, hdw]
      rw [if_neg hq, if_neg hob, if_neg hsb, if_pos ht]
    · exact hkwd ['t', 'r', 'u', 'e'] (by decide) ht
  · by_cases hf : startsWithChars ['f', 'a', 'l', 's', 'e'] (c :: (a' ++ '\n' :: w)) = true
    · apply jsonParse_eq_none_of_leftover _ (Json.bool false) ((c :: (a' ++ '\n' :: w)).drop 5)
      · simp only [parseVal, hdw]
        rw [if_neg hq, if_neg hob, if_neg hsb, if_neg ht, if_pos hf]
      · exact hkwd ['f', 'a', 'l', 's', 'e'] (by decide) hf
    · by_cases hn : startsWithChars ['n', 'u', 'l', 'l'] (c :: (a' ++ '\n' :: w)) = true
      · apply jsonParse_eq_none_of_leftover _ Json.null ((c :: (a' ++ '\n' :: w)).drop 4)
        · simp only [parseVal, hdw]
          rw [if_neg hq, if_neg hob, if_neg hsb, if_neg ht, if_neg hf, if_pos hn]
        · exact hkwd ['n', 'u', 'l', 'l'] (by decide) hn
      · have hpn : parseNum (c :: (a' ++ '\n' :: w)) = none := by
          have hdv : digVal c = none := by simp [digVal, hdg]
          simp [parseNum, if_neg hmn, takeDigits, hdv]
        apply jsonParse_eq_none_of_parseVal_none
        simp only [parseVal, hdw]
        rw [if_neg hq, if_neg hob, if_neg hsb, if_neg ht, if_neg hf, if_neg hn, hpn]
        rfl

/-! ## Claim theorems -/

/-- C1: For every client key, within a single fixed window of 60 seconds with
capacity 10, the first n requests with n ≤ 10 are all allowed, and request
number 11 in the same window is denied with remaining = 0. The first request
at time `t0` opens the window ending at `t0 + windowMs`; the later requests
are at times within that window. -/
theorem rate_limit_window_capacity (t0 : Nat) (rest : List Nat)
    (hwin : ∀ t ∈ rest, t ≤ t0 + RATE_LIMIT_windowMs) :
    (rest.length ≤ 9 →
      ∀ res ∈ (runRateLimit none (t0 :: rest)).1, res.allowed = true)
    ∧ (rest.length = 9 →
      ∀ t11 ≤ t0 + RATE_LIMIT_windowMs,
        (checkRateLimit (some (runRateLimit none (t0 :: rest)).2) t11).1 = ⟨false, 0⟩) := by
  constructor
  · intro hlen res hres
    cases rest with
    | nil =>
      simp only [runRateLimit, checkRateLimit_none, List.mem_singleton] at hres
      subst hres; rfl
    | cons t ts =>
      have hrun := runRateLimit_in_window (t0 + RATE_LIMIT_windowMs) (t :: ts) 1
        (by simp) (le_refl 1)
        (by simp only [List.length_cons] at hlen ⊢; show 1 + (ts.length + 1) ≤ 10; omega)
        hwin
      simp only [runRateLimit, checkRateLimit_none] at hres
      rcases List.mem_cons.mp hres with h | h
      · subst h; rfl
      · exact hrun.1 res h
  · intro hlen t11 ht11
    cases rest with
    | nil => simp at hlen
    | cons t ts =>
      have hrun := runRateLimit_in_window (t0 + RATE_LIMIT_windowMs) (t :: ts) 1
        (by simp) (le_refl 1)
        (by simp only [List.length_cons] at hlen ⊢; show 1 + (ts.length + 1) ≤ 10; omega)
        hwin
      have hfin : (runRateLimit none (t0 :: t :: ts)).2 =
          ⟨1 + (t :: ts).length, t0 + RATE_LIMIT_windowMs⟩ := by
        simp only [runRateLimit, checkRateLimit_none]
        exact hrun.2
      rw [hfin]
      rw [checkRateLimit_deny ⟨1 + (t :: ts).length, t0 + RATE_LIMIT_windowMs⟩ t11 ht11
        (by show (10 : Nat) ≤ 1 + (t :: ts).length
            simp only [List.length_cons] at hlen ⊢; omega)]

/-- Witness for `rate_limit_window_capacity`: ten requests at time 0 from
one key are all allowed, and an eleventh at time 0 is denied with
remaining 0. -/
theorem rate_limit_window_capacity_witness :
    (∀ res ∈ (runRateLimit none (0 :: [0, 0, 0, 0, 0, 0, 0, 0, 0])).1, res.allowed = true)
    ∧ (checkRateLimit (some (runRateLimit none (0 :: [0, 0, 0, 0, 0, 0, 0, 0, 0])).2) 0).1
      = ⟨false, 0⟩ := by
  have h := rate_limit_window_capacity 0 [0, 0, 0, 0, 0, 0, 0, 0, 0] (by decide)
  exact ⟨h.1 (by decide), h.2 (by decide) 0 (by decide)⟩

/-- C5 counterexample: at `now = resetTime` exactly (the spec's boundary
`now ≥ resetTime`), a full record is NOT reset-and-allowed: the code's test
is the strict `now > record.resetTime`, so the request is denied and the
record kept. -/
theorem rate_limit_reset_boundary_counterexample :
    ¬ ((checkRateLimit (some ⟨10, 100⟩) 100).1.allowed = true
       ∧ (checkRateLimit (some ⟨10, 100⟩) 100).2
         = ⟨1, 100 + RATE_LIMIT_windowMs⟩) := by
  decide

/-- C5 (amended): for every call at a time `now` STRICTLY past the stored
`resetTime`, the check resets the record to count 1 with a new
`resetTime = now + windowMs` and allows the request. -/
theorem rate_limit_reset_after_window (r : RateRecord) (now : Nat)
    (h : r.resetTime < now) :
    checkRateLimit (some r) now =
      (⟨true, RATE_LIMIT_maxRequests - 1⟩, ⟨1, now + RATE_LIMIT_windowMs⟩) := by
  simp only [checkRateLimit]
  rw [if_pos h]

/-- Witness for `rate_limit_reset_after_window`: a previously full record
is replaced by a fresh count of 1 once the window has strictly elapsed. -/
theorem rate_limit_reset_after_window_witness :
    checkRateLimit (some ⟨10, 100⟩) 101 =
      (⟨true, RATE_LIMIT_maxRequests - 1⟩, ⟨1, 101 + RATE_LIMIT_windowMs⟩) :=
  rate_limit_reset_after_window ⟨10, 100⟩ 101 (by decide)

/-- C9: after any sequence of rate-limit checks starting from the empty map,
every stored record satisfies 1 ≤ count ≤ maxRequests, and a check that
denies a request returns the map completely unchanged. -/
theorem rate_limit_map_invariant :
    (∀ (events : List (String × Nat)) (k : String) (r : RateRecord),
      (runRateLimitMap emptyRateMap events).2 k = some r →
      1 ≤ r.count ∧ r.count ≤ RATE_LIMIT_maxRequests)
    ∧ (∀ (m : RateMap) (ip : String) (now : Nat),
      (checkRateLimitMap m ip now).1.allowed = false →
      (checkRateLimitMap m ip now).2 = m) := by
  constructor
  · intro events k r hk
    exact runRateLimitMap_inv events emptyRateMap (fun _ _ h => by cases h) k r hk
  · intro m ip now h
    simp only [checkRateLimitMap] at h ⊢
    by_cases ha : (checkRateLimit (m ip) now).1.allowed
    · rw [if_pos ha] at h; rw [ha] at h; cases h
    · rw [if_neg ha]

/-- Witness for `rate_limit_map_invariant`: a concrete two-request run
stores a record with count 2, and a denial on a full record leaves the map
unchanged. -/
theorem rate_limit_map_invariant_witness :
    (1 ≤ (2 : Nat) ∧ (2 : Nat) ≤ RATE_LIMIT_maxRequests)
    ∧ (checkRateLimitMap (fun _ => some ⟨10, 100⟩) "a" 50).2 = fun _ => some ⟨10, 100⟩ := by
  constructor
  · exact rate_limit_map_invariant.1 [("a", 0), ("a", 0)] "a" ⟨2, RATE_LIMIT_windowMs⟩
      (by decide)
  · exact rate_limit_map_invariant.2 (fun _ => some ⟨10, 100⟩) "a" 50 (by decide)

/-- C10: a request with neither an `x-forwarded-for` nor an `x-real-ip`
header resolves to the constant client key "unknown", and eleven such
requests within one window share the single budget of 10: the eleventh is
denied even though the physical clients may all be distinct. -/
theorem unknown_client_key_shared_budget :
    getClientIP none none = "unknown"
    ∧ ((runRateLimitMap emptyRateMap
        (List.replicate 11 (getClientIP none none, 0))).1.getLast? = some ⟨false, 0⟩)
    ∧ (∀ res ∈ (runRateLimitMap emptyRateMap
        (List.replicate 11 (getClientIP none none, 0))).1.dropLast, res.allowed = true) := by
  decide

/-- C3 counterexample: with the credential absent, the streaming review
handler performs no check at all and proceeds straight to the provider
call, and the streaming narrate handler responds 500, not 503. -/
theorem api_key_gate_counterexample :
    decantStreamKeyGate none = ApiKeyOutcome.providerCall none
    ∧ narrateStreamKeyGate none = ApiKeyOutcome.errorResponse 500 "Server Configuration Error" :=
  ⟨rfl, rfl⟩

/-- C3 (amended): when the `API_KEY` environment variable is absent (or
empty, which JavaScript also treats as falsy), the two blocking handlers
return 503 without contacting the provider; the streaming narrate handler
returns 500 without contacting the provider; the streaming review handler
performs no credential check and initiates the provider call regardless. -/
theorem api_key_gate_behaviour (apiKey : Option String)
    (h : isFalsyEnv apiKey = true) :
    decantKeyGate apiKey = ApiKeyOutcome.errorResponse 503 "Service temporarily unavailable"
    ∧ narrateKeyGate apiKey = ApiKeyOutcome.errorResponse 503 "Service unavailable"
    ∧ narrateStreamKeyGate apiKey = ApiKeyOutcome.errorResponse 500 "Server Configuration Error"
    ∧ decantStreamKeyGate apiKey = ApiKeyOutcome.providerCall apiKey := by
  refine ⟨?_, ?_, ?_, ?_⟩ <;>
    simp [decantKeyGate, narrateKeyGate, narrateStreamKeyGate, decantStreamKeyGate, h]

/-- Witness for `api_key_gate_behaviour` at the absent credential. -/
theorem api_key_gate_behaviour_witness :
    decantKeyGate none = ApiKeyOutcome.errorResponse 503 "Service temporarily unavailable"
    ∧ narrateKeyGate none = ApiKeyOutcome.errorResponse 503 "Service unavailable"
    ∧ narrateStreamKeyGate none = ApiKeyOutcome.errorResponse 500 "Server Configuration Error"
    ∧ decantStreamKeyGate none = ApiKeyOutcome.providerCall none :=
  api_key_gate_behaviour none rfl

/-- C4 counterexample: a body whose `persona` is far outside the UI's
closed enumeration passes the review endpoint's server-side validation,
because `requestSchema` only declares `code` and zod strips unknown keys
instead of rejecting them. -/
theorem persona_validation_counterexample :
    requestSchemaParse ⟨some "0123456789", some "galactic"⟩ = some "0123456789"
    ∧ "galactic" ∉ roasterPersonas := by
  constructor
  · rfl
  · decide

/-- C4 (amended): the review endpoint's server-side request validation
checks only the `code` field (length 10..50000); the `persona` field is
never inspected, so any persona value — inside or outside the UI's closed
enumeration — leaves validation unchanged, and the server always uses its
single fixed system prompt. -/
theorem persona_ignored_by_validation (b : ReviewBody) :
    requestSchemaParse b = requestSchemaParse ⟨b.code, none⟩
    ∧ (∀ c, requestSchemaParse b = some c →
        b.code = some c ∧ 10 ≤ c.length ∧ c.length ≤ 50000) := by
  constructor
  · rfl
  · intro c hc
    obtain ⟨code, persona⟩ := b
    match code with
    | none =>
      simp only [requestSchemaParse] at hc
      exact Option.noConfusion hc
    | some c' =>
      simp only [requestSchemaParse] at hc
      by_cases hlen : 10 ≤ c'.length ∧ c'.length ≤ 50000
      · rw [if_pos hlen] at hc
        cases hc
        exact ⟨rfl, hlen⟩
      · rw [if_neg hlen] at hc
        cases hc

/-- Witness for `persona_ignored_by_validation` on a concrete body with an
off-enumeration persona. -/
theorem persona_ignored_by_validation_witness :
    requestSchemaParse ⟨some "0123456789", some "alien"⟩
      = requestSchemaParse ⟨some "0123456789", none⟩
    ∧ (some "0123456789" : Option String) = some "0123456789"
    ∧ 10 ≤ "0123456789".length ∧ "0123456789".length ≤ 50000 := by
  have h := persona_ignored_by_validation ⟨some "0123456789", some "alien"⟩
  have h2 := h.2 "0123456789" (by decide)
  exact ⟨h.1, h2.1, h2.2.1, h2.2.2⟩

/-- C8: fetched PR content of at most 48,000 characters is passed to the
prompt unchanged; longer content is truncated to its first 48,000
characters with the explicit truncation marker appended. -/
theorem pr_content_truncation (l : List Char) :
    (l.length ≤ PR_CONTENT_LIMIT → truncatePRContent l = l)
    ∧ (l.length > PR_CONTENT_LIMIT →
        truncatePRContent l = l.take PR_CONTENT_LIMIT ++ truncationMarker) := by
  constructor
  · intro h
    simp only [truncatePRContent]
    rw [if_neg (by omega), List.take_of_length_le h]
  · intro h
    simp only [truncatePRContent]
    rw [if_pos h]

/-- Witness for `pr_content_truncation`: a 2-character content is passed
through; a 48,001-character content is cut at 48,000 and marked. -/
theorem pr_content_truncation_witness :
    truncatePRContent ('a' :: 'b' :: []) = 'a' :: 'b' :: []
    ∧ truncatePRContent (List.replicate 48001 'a')
      = List.replicate 48000 'a' ++ truncationMarker := by
  constructor
  · exact (pr_content_truncation _).1 (by show (2 : Nat) ≤ 48000; omega)
  · have h := (pr_content_truncation (List.replicate 48001 'a')).2
      (by rw [List.length_replicate]; show (48001 : Nat) > 48000; omega)
    rw [h, List.take_replicate]
    show List.replicate (min 48000 48001) 'a' ++ _ = _
    norm_num

/-- C2 counterexample: the streaming review variant's `tastingNoteSchema`
declares `score` as a bare `z.number()`, so a score of 150 passes
validation unchanged (and 87.6 is not coerced to an integer), contradicting
the claim for that variant. -/
theorem stream_score_unvalidated_counterexample :
    validateStreamTastingNote ⟨['t'], ['d'], ['f'], ['l'], 150⟩
      = some ⟨['t'], ['d'], ['f'], ['l'], 150⟩
    ∧ ¬ ((150 : ℚ) ≤ 100)
    ∧ validateStreamTastingNote ⟨['t'], ['d'], ['f'], ['l'], 438 / 5⟩
      = some ⟨['t'], ['d'], ['f'], ['l'], 438 / 5⟩
    ∧ (438 / 5 : ℚ) ≠ ((88 : ℤ) : ℚ) := by
  refine ⟨rfl, by norm_num, rfl, by norm_num⟩

/-- C2 (amended): the blocking review endpoint's `responseSchema` yields
only integer scores in [0,100], coercing by rounding (87.6 becomes 88) and
rejecting out-of-bounds values such as 150 outright; the streaming
variant's schema imposes no such constraint. -/
theorem score_validation (r : RawTastingNote) :
    (∀ t, validateTastingNote r = some t →
      0 ≤ t.score ∧ t.score ≤ 100 ∧ t.score = round r.score)
    ∧ (r.score = 438 / 5 → ∀ t, validateTastingNote r = some t → t.score = 88)
    ∧ ((150 : ℚ) ≤ r.score → validateTastingNote r = none) := by
  refine ⟨?_, ?_, ?_⟩
  · intro t ht
    simp only [validateTastingNote] at ht
    by_cases hb : 1 ≤ r.title.length ∧ r.title.length ≤ 300
        ∧ 1 ≤ r.diagnosis.length ∧ r.diagnosis.length ≤ 3000
        ∧ 1 ≤ r.fix.length ∧ r.fix.length ≤ 2000
        ∧ 1 ≤ r.level.length ∧ r.level.length ≤ 150
        ∧ 0 ≤ r.score ∧ r.score ≤ 100
    · rw [if_pos hb] at ht
      cases ht
      have hs0 : (0 : ℚ) ≤ r.score := hb.2.2.2.2.2.2.2.2.1
      have hs1 : r.score ≤ 100 := hb.2.2.2.2.2.2.2.2.2
      refine ⟨?_, ?_, rfl⟩
      · show (0 : ℤ) ≤ round r.score
        rw [round_eq]
        rw [Int.le_floor]
        push_cast
        linarith
      · show round r.score ≤ (100 : ℤ)
        rw [round_eq]
        have : ⌊r.score + 1 / 2⌋ < 101 := by
          rw [Int.floor_lt]
          push_cast
          linarith
        omega
    · rw [if_neg hb] at ht
      cases ht
  · intro hsc t ht
    simp only [validateTastingNote] at ht
    by_cases hb : 1 ≤ r.title.length ∧ r.title.length ≤ 300
        ∧ 1 ≤ r.diagnosis.length ∧ r.diagnosis.length ≤ 3000
        ∧ 1 ≤ r.fix.length ∧ r.fix.length ≤ 2000
        ∧ 1 ≤ r.level.length ∧ r.level.length ≤ 150
        ∧ 0 ≤ r.score ∧ r.score ≤ 100
    · rw [if_pos hb] at ht
      cases ht
      show round r.score = (88 : ℤ)
      rw [hsc, round_eq]
      have : ((438 : ℚ) / 5 + 1 / 2) = 881 / 10 := by norm_num
      rw [this, Int.floor_eq_iff]
      norm_num
    · rw [if_neg hb] at ht
      cases ht
  · intro hsc
    simp only [validateTastingNote]
    rw [if_neg]
    intro hb
    have := hb.2.2.2.2.2.2.2.2.2
    linarith

/-- Witness for `score_validation` at the concrete notes of the claim. -/
theorem score_validation_witness :
    validateTastingNote ⟨['t'], ['d'], ['f'], ['l'], 438 / 5⟩
      = some ⟨['t'], ['d'], ['f'], ['l'], 88⟩
    ∧ validateTastingNote ⟨['t'], ['d'], ['f'], ['l'], 150⟩ = none := by
  constructor
  · have h88 := (score_validation ⟨['t'], ['d'], ['f'], ['l'], 438 / 5⟩).2.1 rfl
    match hv : validateTastingNote ⟨['t'], ['d'], ['f'], ['l'], 438 / 5⟩ with
    | none =>
      exfalso
      simp only [validateTastingNote] at hv
      rw [if_pos (by norm_num)] at hv
      cases hv
    | some t =>
      have hs := h88 t hv
      have hrest : t.title = ['t'] ∧ t.diagnosis = ['d'] ∧ t.fix = ['f'] ∧ t.level = ['l'] := by
        simp only [validateTastingNote] at hv
        rw [if_pos (by norm_num)] at hv
        cases hv
        exact ⟨rfl, rfl, rfl, rfl⟩
      match t with
      | ⟨a, b, c, d, s⟩ =>
        simp only at hs hrest
        rw [hrest.1, hrest.2.1, hrest.2.2.1, hrest.2.2.2, hs]
  · exact (score_validation ⟨['t'], ['d'], ['f'], ['l'], 150⟩).2.2 (by norm_num)

/-- C6 counterexample: on the raw text `x{y {"a":1}` — leading prose
followed by the balanced object span `{"a":1}` — the code's greedy regex
selects the unbalanced span from the first opening brace to the last
closing brace, not the first balanced span, and normalization therefore
fails with a parse error where the claim demands success. -/
theorem extraction_not_balanced_counterexample :
    decantNormalize ['x', '{', 'y', ' ', '{', '\"', 'a', '\"', ':', '1', '}']
      = Except.error "Failed to parse response"
    ∧ firstBalancedObjectSpan ['x', '{', 'y', ' ', '{', '\"', 'a', '\"', ':', '1', '}']
      = some ['{', '\"', 'a', '\"', ':', '1', '}']
    ∧ (jsonParse ['{', '\"', 'a', '\"', ':', '1', '}']).isSome = true
    ∧ extractCandidate ['x', '{', 'y', ' ', '{', '\"', 'a', '\"', ':', '1', '}']
      ≠ firstBalancedObjectSpan ['x', '{', 'y', ' ', '{', '\"', 'a', '\"', ':', '1', '}'] := by
  refine ⟨rfl, rfl, rfl, ?_⟩
  decide

/-- C6 (amended): the fallback extracts the greedy span from the first
opening brace to the last closing brace; when the leading prose contains
no opening brace and the balanced object span ends the text, that greedy
span coincides with the object span; and raw text in which the regex finds
no candidate at all makes normalization fail with the no-JSON error
(mapped by the handler to a generic 500, with the raw-text excerpt only in
server logs). -/
theorem extraction_fallback_behaviour :
    (∀ p b, '{' ∉ p → b.head? = some '{' → b.getLast? = some '}' →
      extractCandidate (p ++ b) = some b)
    ∧ (∀ t, jsonParse (stripFences (trimChars t)) = none →
        extractCandidate (stripFences (trimChars t)) = none →
        decantNormalize t = Except.error "No valid JSON found in response") := by
  constructor
  · intro p b hp hb1 hb2
    exact extractCandidate_trailing_span p b hp hb1 hb2
  · intro t hparse hext
    simp only [decantNormalize, hparse, hext]

/-- Witness for `extraction_fallback_behaviour`: prose with no brace
followed by an object span extracts exactly that span, and brace-free text
produces the no-JSON error. -/
theorem extraction_fallback_behaviour_witness :
    extractCandidate (['p', 'q', ' '] ++ ['{', '\"', 'a', '\"', ':', '1', '}'])
      = some ['{', '\"', 'a', '\"', ':', '1', '}']
    ∧ decantNormalize ['h', 'i'] = Except.error "No valid JSON found in response" :=
  ⟨extraction_fallback_behaviour.1 ['p', 'q', ' '] ['{', '\"', 'a', '\"', ':', '1', '}']
      (by decide) rfl rfl,
    extraction_fallback_behaviour.2 ['h', 'i'] rfl rfl⟩

/-- C7: raw model text that is a fenced block wrapping a valid object
normalizes to the same parsed object as parsing the inner content
directly, whatever format tag the fence carries (none, `json`, or any
other word): the `json`-tagged and bare fences are stripped outright, and
any other tag survives stripping only to be discarded by the fallback
span extraction. -/
theorem fenced_block_normalization (tag inner : List Char) (v : Json)
    (htag : ∀ c ∈ tag, isTagChar c = true)
    (h1 : inner.head? = some '{') (h2 : inner.getLast? = some '}')
    (hv : jsonParse inner = some v) :
    decantNormalize (fencedBlock tag inner) = Except.ok v := by
  rcases stripFences_fencedBlock tag inner htag h1 h2 with hc | ⟨a₂, ha₂, htc, hc⟩
  · simp only [decantNormalize, hc, hv]
  · have hnone : jsonParse (a₂ ++ '\n' :: inner) = none :=
      jsonParse_tag_leading a₂ inner ha₂ htc (mem_of_head?_eq inner '{' h1)
    have hext : extractCandidate (a₂ ++ '\n' :: inner) = some inner := by
      have hspan := extractCandidate_trailing_span (a₂ ++ ['\n']) inner ?_ h1 h2
      · rw [List.append_assoc] at hspan
        simpa using hspan
      · intro hmem
        rcases List.mem_append.mp hmem with h | h
        · exact (isTagChar_spec _ (htc _ h)).2.2.1 rfl
        · simp at h
    simp only [decantNormalize, hc, hnone, hext, hv]

/-- Witness for `fenced_block_normalization`: a `ts`-tagged fence around
the empty object normalizes to the same object as parsing it directly. -/
theorem fenced_block_normalization_witness :
    decantNormalize (fencedBlock ['t', 's'] ['{', '}']) = Except.ok (Json.obj [])
    ∧ jsonParse ['{', '}'] = some (Json.obj []) :=
  ⟨fenced_block_normalization ['t', 's'] ['{', '}'] (Json.obj []) (by decide) rfl rfl rfl,
    rfl⟩

end Toprev
